import Mathlib

/-!
Shallow embedding of the HelvetiScan data pipeline (`src/api.ts`, `src/types.ts`)
together with proofs of the specification's claims about it.

The embedding models the TypeScript source:
* JavaScript strings are modelled at the Unicode code-point level (`String` /
  `List Char`); the JS builtins used by the source (`decodeURIComponent`,
  `encodeURIComponent`, `toLowerCase`, `startsWith`, `includes`,
  `replace(/_/g, ' ')`, `substring`) are given executable models below.
* The global in-memory response cache (a JS `Map`, which iterates in insertion
  order) is modelled as an association list in insertion order and passed
  explicitly through every stateful function.
* The network is an oracle `remote : String → Nat → Option Payload` mapping a
  request URL and a retry-attempt index to the parsed response payload (`none`
  models a transport / status / parse failure of that attempt).
* `async` functions that can throw return `Except Unit _`; functions whose
  bodies catch all of their own exceptions are total.
-/

namespace HelvetiScan

/-! ### Models of the JavaScript string builtins -/

/-- Model of `String.prototype.toLowerCase` on one code point.  ASCII and Latin-1
letters are mapped; case mappings outside Latin-1 are not modelled (no string
constant of the source needs them). -/
def jsToLowerChar (c : Char) : Char :=
  if 'A' ≤ c ∧ c ≤ 'Z' then Char.ofNat (c.toNat + 32)
  else if 0xC0 ≤ c.toNat ∧ c.toNat ≤ 0xDE ∧ c.toNat ≠ 0xD7 then Char.ofNat (c.toNat + 32)
  else c

/-- Model of `String.prototype.toLowerCase`. -/
def jsToLower (s : String) : String := String.mk (s.data.map jsToLowerChar)

/-- One step of `replace(/_/g, ' ')`. -/
def underscoreToSpace (c : Char) : Char := if c = '_' then ' ' else c

/-- Model of `s.replace(/_/g, ' ')`: every underscore becomes a space. -/
def replaceUnderscores (s : String) : String := String.mk (s.data.map underscoreToSpace)

/-- Model of `String.prototype.startsWith`. -/
def startsWithJS (s pre : String) : Bool := pre.data.isPrefixOf s.data

/-- Substring containment on code-point lists, used to model
`String.prototype.includes`. -/
def listIncludes (pat : List Char) : List Char → Bool
  | [] => pat.isPrefixOf []
  | l@(_ :: t) => pat.isPrefixOf l || listIncludes pat t

/-- Model of `s.includes pat`. -/
def includesJS (s pat : String) : Bool := listIncludes pat.data s.data

/-- Value of a hexadecimal digit, case insensitive (as accepted by
`decodeURIComponent`). -/
def hexVal (c : Char) : Option Nat :=
  let n := c.toNat
  if 48 ≤ n ∧ n ≤ 57 then some (n - 48)
  else if 65 ≤ n ∧ n ≤ 70 then some (n - 55)
  else if 97 ≤ n ∧ n ≤ 102 then some (n - 87)
  else none

/-- Is `b` a UTF-8 continuation byte? -/
def isCont (b : Nat) : Bool := 0x80 ≤ b ∧ b ≤ 0xBF

/-- Strict UTF-8 decoding of a byte sequence (values `0..255`) into code
points; `none` on malformed input (overlong encodings, surrogates and
truncated sequences are rejected, as `decodeURIComponent` does). -/
def utf8Decode : List Nat → Option (List Char)
  | [] => some []
  | b :: rest =>
    if b < 0x80 then
      (utf8Decode rest).map (fun cs => Char.ofNat b :: cs)
    else if 0xC2 ≤ b ∧ b ≤ 0xDF then
      match rest with
      | b1 :: rest1 =>
        if isCont b1 then
          (utf8Decode rest1).map (fun cs => Char.ofNat ((b - 0xC0) * 64 + (b1 - 0x80)) :: cs)
        else none
      | [] => none
    else if 0xE0 ≤ b ∧ b ≤ 0xEF then
      match rest with
      | b1 :: b2 :: rest2 =>
        if (if b = 0xE0 then 0xA0 ≤ b1 ∧ b1 ≤ 0xBF
            else if b = 0xED then 0x80 ≤ b1 ∧ b1 ≤ 0x9F
            else isCont b1) ∧ isCont b2 then
          (utf8Decode rest2).map (fun cs =>
            Char.ofNat ((b - 0xE0) * 4096 + (b1 - 0x80) * 64 + (b2 - 0x80)) :: cs)
        else none
      | _ => none
    else if 0xF0 ≤ b ∧ b ≤ 0xF4 then
      match rest with
      | b1 :: b2 :: b3 :: rest3 =>
        if (if b = 0xF0 then 0x90 ≤ b1 ∧ b1 ≤ 0xBF
            else if b = 0xF4 then 0x80 ≤ b1 ∧ b1 ≤ 0x8F
            else isCont b1) ∧ isCont b2 ∧ isCont b3 then
          (utf8Decode rest3).map (fun cs =>
            Char.ofNat ((b - 0xF0) * 262144 + (b1 - 0x80) * 4096 + (b2 - 0x80) * 64 + (b3 - 0x80)) :: cs)
        else none
      | _ => none
    else none

/-- UTF-8 encoding of one code point as byte values. -/
def utf8EncodeChar (c : Char) : List Nat :=
  let n := c.toNat
  if n < 0x80 then [n]
  else if n < 0x800 then [0xC0 + n / 64, 0x80 + n % 64]
  else if n < 0x10000 then [0xE0 + n / 4096, 0x80 + (n / 64) % 64, 0x80 + n % 64]
  else [0xF0 + n / 262144, 0x80 + (n / 4096) % 64, 0x80 + (n / 64) % 64, 0x80 + n % 64]

/-- Percent-decoding: each `%HH` becomes the byte `HH`; any other code point
contributes its UTF-8 bytes; `none` on a malformed escape (`URIError`). -/
def percentBytes : List Char → Option (List Nat)
  | [] => some []
  | '%' :: h :: l :: rest => do
    let hv ← hexVal h
    let lv ← hexVal l
    let bs ← percentBytes rest
    pure ((hv * 16 + lv) :: bs)
  | '%' :: _ :: [] => none
  | '%' :: [] => none
  | c :: rest => do
    let bs ← percentBytes rest
    pure (utf8EncodeChar c ++ bs)

/-- Model of `decodeURIComponent`: percent-decode to bytes, then UTF-8 decode;
`none` models a thrown `URIError`. -/
def decodeURIComponentOpt (s : String) : Option String := do
  let bytes ← percentBytes s.data
  let cs ← utf8Decode bytes
  pure (String.mk cs)

/-- Total wrapper for `decodeURIComponent` used inside the stage definitions:
on malformed input — where the real code throws `URIError` — the string is
kept undecoded.  None of the properties proved below depends on the behaviour
at malformed escapes. -/
def decodeD (s : String) : String := (decodeURIComponentOpt s).getD s

/-- Code points `encodeURIComponent` leaves unescaped. -/
def uriUnreserved (c : Char) : Bool :=
  ('A' ≤ c ∧ c ≤ 'Z') ∨ ('a' ≤ c ∧ c ≤ 'z') ∨ ('0' ≤ c ∧ c ≤ '9') ∨
    c ∈ ['-', '_', '.', '!', '~', '*', Char.ofNat 39, '(', ')']

/-- Upper-case hexadecimal digit. -/
def hexChar (n : Nat) : Char := "0123456789ABCDEF".data.getD n '0'

/-- Model of `encodeURIComponent` on one code point. -/
def encChar (c : Char) : List Char :=
  if uriUnreserved c then [c]
  else ((utf8EncodeChar c).map (fun b => ['%', hexChar (b / 16), hexChar (b % 16)])).flatten

/-- Model of `encodeURIComponent`. -/
def encodeURIComponentStr (s : String) : String := String.mk (s.data.map encChar).flatten

/-! ### Data model (`src/types.ts`) -/

/-- The reliability tier `'low' | 'medium' | 'high'`. -/
inductive Reliability
  | low
  | medium
  | high
deriving DecidableEq, Repr

/-- The optional `metadata` record attached to an `Article`
(`description` / `thumbnail` / `categories` / `extract`, all optional). -/
structure ArticleMetadata where
  description : Option String := none
  thumbnail : Option String := none
  categories : Option (List String) := none
  extract : Option String := none
deriving DecidableEq, Repr

/-- One ranked article (`interface Article`).  The display-only fields
`languages`, `mainLanguage` and `dailyViews` are never read or written by
`api.ts` and are omitted. -/
structure Article where
  article : String
  views : Nat
  growth : Option Int := none
  growthPercentage : Option Rat := none
  previousViews : Option Nat := none
  reliability : Option Reliability := none
  metadata : Option ArticleMetadata := none
deriving DecidableEq, Repr

/-- The language editions `type Language = 'fr' | 'en' | 'de' | 'es'`. -/
inductive Language
  | fr
  | en
  | de
  | es
deriving DecidableEq, Repr

/-- The language code as it appears in request URLs. -/
def Language.code : Language → String
  | .fr => "fr"
  | .en => "en"
  | .de => "de"
  | .es => "es"

/-- The periods `type Period = 'daily' | '48h' | 'weekly' | 'monthly'` (`h48` stands for
the source's `'48h'`). -/
inductive Period
  | daily
  | h48
  | weekly
  | monthly
deriving DecidableEq, Repr

/-- An entry of `MediaWikiResponse.query.pages[].categories`. -/
structure WikipediaCategory where
  title : String
deriving DecidableEq, Repr

/-- An entry of `MediaWikiResponse.query.pages`; `thumbnail` is reduced to its
`source` URL, the only field the source reads.  `pageid` / `ns` /
`description` are never read and are omitted. -/
structure MWPage where
  title : String
  thumbnail : Option String := none
  categories : Option (List WikipediaCategory) := none
  extract : Option String := none
deriving DecidableEq, Repr

/-- An entry of `ApiResponse.items`. -/
structure ItemsEntry where
  articles : List Article
deriving DecidableEq, Repr

/-- A parsed response body as stored in the cache: either the pageview
service's `ApiResponse` shape or the MediaWiki metadata shape.  Reading a
payload through the wrong shape (the source's unchecked `as T` cast) surfaces
as a `TypeError` at the property access, modelled where it occurs. -/
inductive Payload
  | api (items : List ItemsEntry)
  | mw (pages : List MWPage)
deriving DecidableEq, Repr

/-! ### Response cache and resilient fetcher (`api.ts` lines 7–62) -/

def MAX_CACHE_SIZE : Nat := 100

/-- The TTL: 15 minutes in milliseconds. -/
def CACHE_TTL : Nat := 15 * 60 * 1000

/-- A cache slot: `{ data, timestamp }`. -/
structure CacheEntry where
  data : Payload
  timestamp : Nat
deriving DecidableEq, Repr

/-- The JS `Map` in insertion order: first element = oldest-inserted key. -/
abbrev Cache := List (String × CacheEntry)

/-- Model of `Map.prototype.get`. -/
def cacheGet (c : Cache) (k : String) : Option CacheEntry :=
  (c.find? (fun p => p.1 == k)).map (·.2)

/-- Model of `Map.prototype.set` / object-record assignment: update in place if the key
is present (keeping its position), otherwise append. -/
def assocSet {β : Type} (c : List (String × β)) (k : String) (v : β) : List (String × β) :=
  if c.any (fun p => p.1 == k) then
    c.map (fun p => if p.1 == k then (k, v) else p)
  else
    c ++ [(k, v)]

/-- Lines 41–46: if the cache is at capacity, delete the oldest-inserted key
(`cache.keys().next().value`), then `cache.set(url, { data, timestamp })`. -/
def cacheInsert (c : Cache) (k : String) (v : CacheEntry) : Cache :=
  let c1 := if MAX_CACHE_SIZE ≤ c.length then c.tail else c
  assocSet c1 k v

/-- Result of one `fetchFromAPI` invocation: the value or the propagated last
error, the cache afterwards, and how many remote requests were issued. -/
structure FetchOutcome where
  result : Except Unit Payload
  cache : Cache
  calls : Nat
deriving Repr

/-- The retry loop of `fetchFromAPI` (lines 29–59): up to `retries` attempts;
a successful attempt stores the payload under `url` (bounding the cache size
first) and returns it; when all attempts fail the last error is thrown.  The
backoff delays do not change state and are not represented. -/
def retryLoop (remote : String → Nat → Option Payload) (url : String) (now : Nat) :
    Nat → Nat → Cache → FetchOutcome
  | 0, _, c => ⟨.error (), c, 0⟩
  | retries + 1, attempt, c =>
    match remote url attempt with
    | some data => ⟨.ok data, cacheInsert c url ⟨data, now⟩, 1⟩
    | none =>
      let rest := retryLoop remote url now retries (attempt + 1) c
      ⟨rest.result, rest.cache, rest.calls + 1⟩

/-- The fetcher `fetchFromAPI` (lines 15–62): a cached entry younger than `CACHE_TTL` is
returned at once; otherwise the retry loop runs with 3 attempts. -/
def fetchFromAPI (remote : String → Nat → Option Payload) (now : Nat) (url : String)
    (c : Cache) : FetchOutcome :=
  match cacheGet c url with
  | some cached =>
    if now - cached.timestamp < CACHE_TTL then ⟨.ok cached.data, c, 0⟩
    else retryLoop remote url now 3 0 c
  | none => retryLoop remote url now 3 0 c

/-! ### Page filter (`filterUnwantedPages`, lines 67–88) -/

/-- The fixed namespace name starts removed by the page filter. -/
def unwantedPrefixes : List String :=
  ["Wikipédia:", "Wikipedia:", "Special:", "Spécial:",
   "Speciale:", "Spezial:", "MediaWiki:", "Help:", "Aide:",
   "Hilfe:", "Ayuda:", "Template:", "Modèle:", "Vorlage:",
   "Plantilla:", "User:", "Utilisateur:", "Benutzer:",
   "Usuario:", "Talk:", "Discussion:", "Diskussion:", "Discusión:"]

/-- The fixed non-content page titles removed by the page filter. -/
def unwantedPages : List String :=
  ["Wikipédia:Accueil_principal", "Wikipedia:Main_Page",
   "Wikipedia:Hauptseite", "Wikipedia:Portada",
   "Cookie_(informatique)", "HTTP_cookie", "Cookie",
   "Recherche", "Search", "Suche", "Búsqueda"]

/-- The page filter `filterUnwantedPages`: keep an article iff its decoded title neither
starts with an unwanted namespace name nor is an unwanted exact title. -/
def filterUnwantedPages (articles : List Article) : List Article :=
  articles.filter fun article =>
    let decodedTitle := decodeD article.article
    !(unwantedPrefixes.any fun pre => startsWithJS decodedTitle pre) &&
      !(unwantedPages.contains decodedTitle)

/-- The helper `getDaysToSubtract` (lines 95–103): always 1 — the `/top` endpoint only
serves single days, so every period fetches the most recent complete day. -/
def getDaysToSubtract : Period → Nat
  | .h48 => 1
  | .weekly => 1
  | .monthly => 1
  | .daily => 1

/-! ### Relevance filter (`filterSwissArticlesV2`, lines 226–284) -/

def swissLocations : List String :=
  ["zurich", "zürich", "genève", "geneva", "genf", "basel", "bâle", "bern", "berne",
   "lausanne", "winterthur", "winterthour", "lucerne", "luzern", "lugano", "sankt gallen",
   "saint-gall", "biel", "bienne", "thun", "thoune", "köniz", "fribourg", "freiburg",
   "schaffhausen", "schaffhouse", "chur", "coire", "sion", "sitten", "bellinzona"]

def swissGeneral : List String :=
  ["suisse", "schweiz", "switzerland", "svizzera", "swiss", "schweizerische",
   "fédéral", "federal", "confederation", "confédération", "eidgenössische",
   "national", "bundesrat", "conseil fédéral"]

/-- Dedupe as in `[...new Set([...locations, ...general])]`: deduplicate keeping first
occurrences. -/
def allSwissTerms : List String := (swissLocations ++ swissGeneral).eraseDups

/-- The stage-1 keyword test of one article: lowercase the raw identifier,
decode it, turn underscores into spaces, and test substring containment of
any term. -/
def swissKeywordMatch (article : Article) : Bool :=
  let decodedTitle := replaceUnderscores (decodeD (jsToLower article.article))
  allSwissTerms.any fun term => includesJS decodedTitle (jsToLower term)

/-- Stage 1 of the relevance filter (`keywordFilteredArticles`, lines 243–246). -/
def swissKeywordFilter (articles : List Article) : List Article :=
  articles.filter swissKeywordMatch

def swissCategoryKeywords : List String := ["suisse", "schweiz", "switzerland", "svizzera"]

/-- The stage-2 category test (lines 266–273): false when `metadata` or
`metadata.categories` is absent, else substring containment of a core term in
some lowercased category name. -/
def hasSwissCategory (article : Article) : Bool :=
  match article.metadata with
  | none => false
  | some md =>
    match md.categories with
    | none => false
    | some cats =>
      cats.any fun category =>
        swissCategoryKeywords.any fun keyword => includesJS (jsToLower category) keyword

/-- The stage-2 batch loop (lines 260–277): enrich batches of 50 remaining
articles, keep category matches, accumulate onto the stage-1 result and stop
early at 50 accumulated articles.  The enrichment call is a parameter so that
claims about when it is (not) invoked quantify over every possible enricher;
`filterSwissArticlesV2` below instantiates it with the real one. -/
def stage2Loop (enrich : List Article → Cache → List Article × Cache) :
    List Article → List Article → Cache → List Article × Cache
  | [], acc, c => (acc, c)
  | r0 :: rs, acc, c =>
    let remaining := r0 :: rs
    let batch := remaining.take 50
    let (enriched, c1) := enrich batch c
    let categoryFiltered := enriched.filter hasSwissCategory
    let acc1 := acc ++ categoryFiltered
    if 50 ≤ acc1.length then (acc1, c1)
    else stage2Loop enrich (remaining.drop 50) acc1 c1
  termination_by remaining => remaining.length
  decreasing_by simp; omega

/-- The filter `filterSwissArticlesV2` with the enricher abstracted: stage-1 keyword
filter, short-circuit at 10 matches, otherwise the stage-2 category loop over
the articles not already keyword-matched.  The source's `try`/`catch` around
stage 2 is dead in the model: the enrichment function is total (the real one
catches all of its own errors), so nothing in the `try` block can throw. -/
def filterSwissArticlesV2Gen (enrich : List Article → Cache → List Article × Cache)
    (articles : List Article) (c : Cache) : List Article × Cache :=
  let keywordFilteredArticles := swissKeywordFilter articles
  if 10 ≤ keywordFilteredArticles.length then
    (keywordFilteredArticles, c)
  else
    let remainingArticles := articles.filter fun article =>
      !(keywordFilteredArticles.any fun filtered => filtered.article == article.article)
    stage2Loop enrich remainingArticles keywordFilteredArticles c

/-! ### Metadata enricher (`enrichArticlesWithMetadata` / `getArticleMetadata`,
lines 289–361) -/

/-- The per-title record built by `getArticleMetadata` (all fields defaulted
with `|| ''` / `|| []`). -/
structure MetaRecord where
  description : String
  thumbnail : String
  categories : List String
  extract : String
deriving DecidableEq, Repr

/-- Lookup in a JS record (`metadata[title]`). -/
def recordGet (m : List (String × MetaRecord)) (k : String) : Option MetaRecord :=
  (m.find? (fun p => p.1 == k)).map (·.2)

def API_BASE : String := "https://wikimedia.org/api/rest_v1/metrics/pageviews"

/-- The MediaWiki query URL built by `getArticleMetadata` (line 340). -/
def mwUrl (language : Language) (titles : List String) : String :=
  let titlesParam := String.intercalate "|" (titles.map encodeURIComponentStr)
  "https://" ++ language.code ++
    ".wikipedia.org/w/api.php?action=query&format=json&prop=pageimages|extracts|categories&exintro=1&explaintext=1&pithumbsize=100&pilimit=" ++
    toString titles.length ++ "&cllimit=10&titles=" ++ titlesParam ++
    "&formatversion=2&origin=*"

/-- The metadata request `getArticleMetadata` (lines 336–361): one resilient fetch for the batch;
every failure — including a payload of the wrong shape, whose
`data.query.pages` access throws — is caught and yields the empty record. -/
def getArticleMetadata (remote : String → Nat → Option Payload) (now : Nat)
    (titles : List String) (language : Language) (c : Cache) :
    List (String × MetaRecord) × Cache :=
  if titles.isEmpty then ([], c)
  else
    let url := mwUrl language titles
    match fetchFromAPI remote now url c with
    | ⟨.ok (.mw pages), c1, _⟩ =>
      (pages.foldl (fun md page =>
        assocSet md page.title
          ⟨(page.extract.map (fun e => e.take 150)).getD "",
           page.thumbnail.getD "",
           (page.categories.map (fun cs => cs.map (·.title))).getD [],
           page.extract.getD ""⟩) [], c1)
    | ⟨.ok _, c1, _⟩ => ([], c1)
    | ⟨.error _, c1, _⟩ => ([], c1)

/-- The batch loop of `enrichArticlesWithMetadata` (lines 296–324): batches of
25, one metadata request per batch, matching returned records back to
articles by decoded space-normalized title; unmatched articles pass through
unchanged. -/
def enrichLoop (remote : String → Nat → Option Payload) (now : Nat) (language : Language) :
    List Article → List Article → Cache → List Article × Cache
  | [], acc, c => (acc, c)
  | a0 :: as0, acc, c =>
    let articles := a0 :: as0
    let batch := articles.take 25
    let titles := batch.map fun article => replaceUnderscores (decodeD article.article)
    let (metadata, c1) := getArticleMetadata remote now titles language c
    let enriched := batch.map fun article =>
      let title := replaceUnderscores (decodeD article.article)
      match recordGet metadata title with
      | some articleMetadata =>
        { article with
          metadata := some ⟨some articleMetadata.description, some articleMetadata.thumbnail,
            some articleMetadata.categories, some articleMetadata.extract⟩ }
      | none => article
    enrichLoop remote now language (articles.drop 25) (acc ++ enriched) c1
  termination_by articles => articles.length
  decreasing_by simp; omega

/-- The enricher `enrichArticlesWithMetadata` (lines 289–331).  Its `try`/`catch` is dead
in the model because `getArticleMetadata` catches all of its own errors. -/
def enrichArticlesWithMetadata (remote : String → Nat → Option Payload) (now : Nat)
    (articles : List Article) (language : Language) (c : Cache) :
    List Article × Cache :=
  if articles.isEmpty then ([], c)
  else enrichLoop remote now language articles [] c

/-- The concrete `filterSwissArticlesV2` (lines 226–284), with the real enricher. -/
def filterSwissArticlesV2 (remote : String → Nat → Option Payload) (now : Nat)
    (articles : List Article) (language : Language) (c : Cache) :
    List Article × Cache :=
  filterSwissArticlesV2Gen
    (fun batch c1 => enrichArticlesWithMetadata remote now batch language c1) articles c

/-! ### Trend calculator (`calculateTrendsImproved`, lines 180–221) -/

/-- Lookup as in `new Map(previousArticles.map(a => [a.article, a])).get(k)`: the last
entry with a given key wins. -/
def lastMatch (previousArticles : List Article) (k : String) : Option Article :=
  previousArticles.foldl (fun acc a => if a.article == k then some a else acc) none

/-- The value `previous?.views || 0`. -/
def previousViewsOf (previousArticles : List Article) (current : Article) : Nat :=
  match lastMatch previousArticles current.article with
  | some p => p.views
  | none => 0

/-- The per-article mapping step of `calculateTrendsImproved` (lines 184–211):
below the reliability floor of 100 previous views the article is emitted with
zero growth and tier `low`; otherwise growth, exact growth percentage and a
`high`/`medium` tier are computed. -/
def trendEntry (previousArticles : List Article) (current : Article) : Article :=
  let previousViews := previousViewsOf previousArticles current
  if previousViews < 100 then
    { current with
      growth := some 0
      growthPercentage := some 0
      previousViews := some previousViews
      reliability := some .low }
  else
    let growth : Int := (current.views : Int) - (previousViews : Int)
    let growthPercentage : Rat := ((growth : Rat) / (previousViews : Rat)) * 100
    let reliability : Reliability :=
      if 10000 < current.views ∧ 1000 < previousViews then .high else .medium
    { current with
      growth := some growth
      growthPercentage := some growthPercentage
      previousViews := some previousViews
      reliability := some reliability }

/-- The output filter `article.growth && article.growth > 0` (line 214): with
JS truthiness, an absent or zero growth fails the first conjunct, so exactly
the articles with a present, strictly positive growth are kept. -/
def trendKeep (a : Article) : Bool :=
  match a.growth with
  | some g => decide (0 < g)
  | none => false

/-- The sort comparator (lines 215–220). -/
def trendCompare (a b : Article) : Int :=
  if a.reliability ≠ b.reliability then
    if a.reliability = some .high then -1 else 1
  else
    (b.growth.getD 0) - (a.growth.getD 0)

/-- Holds when `a` may stay before `b` under the comparator. -/
def trendLE (a b : Article) : Bool := trendCompare a b ≤ 0

/-- The calculator `calculateTrendsImproved` (lines 180–221): map, keep strictly positive
growth, sort by the comparator.  `Array.prototype.sort` is required to be
stable; on every list produced by the preceding filter the comparator is a
total, transitive preorder (only `high`/`medium` tiers survive), so the
stable `mergeSort` models it faithfully. -/
def calculateTrendsImproved (currentArticles previousArticles : List Article) : List Article :=
  let trends := currentArticles.map (trendEntry previousArticles)
  (trends.filter trendKeep).mergeSort trendLE

/-! ### Orchestrator (`fetchTopArticles` / `fetchTrendingArticles` /
`fetchPreviousPeriodData`, lines 108–175) -/

/-- The pageview `/top` URL (lines 113 / 169) for a `yyyyMMdd` date string. -/
def topUrl (language : Language) (formattedDate : String) : String :=
  API_BASE ++ "/top/" ++ language.code ++ ".wikipedia/all-access/" ++
    formattedDate.take 4 ++ "/" ++ ((formattedDate.drop 4).take 2) ++ "/" ++
    ((formattedDate.drop 6).take 2)

/-- The operation `fetchTopArticles` (lines 108–130).  `dateFor n` abstracts
`format(subDays(new Date(), n), 'yyyyMMdd')` — the formatted date `n` days
back from the wall clock.  A failed primary fetch, or a payload on which
`data.items[0].articles` throws, propagates as an error: the source has no
`try`/`catch` here. -/
def fetchTopArticles (remote : String → Nat → Option Payload) (now : Nat)
    (dateFor : Nat → String) (language : Language) (period : Period) (swissOnly : Bool)
    (c : Cache) : Except Unit (List Article) × Cache :=
  let formattedDate := dateFor (getDaysToSubtract period)
  let url := topUrl language formattedDate
  match fetchFromAPI remote now url c with
  | ⟨.error _, c1, _⟩ => (.error (), c1)
  | ⟨.ok (.api (first :: _)), c1, _⟩ =>
    let articles := filterUnwantedPages first.articles
    let (articles, c2) :=
      if swissOnly then filterSwissArticlesV2 remote now articles language c1
      else (articles, c1)
    if 0 < articles.length then
      let (enrichedArticles, c3) := enrichArticlesWithMetadata remote now articles language c2
      (.ok (enrichedArticles.take 50), c3)
    else
      (.ok (articles.take 50), c2)
  | ⟨.ok _, c1, _⟩ => (.error (), c1)

/-- The comparison-date offset of `fetchPreviousPeriodData` (lines 153–165):
2 days back for `daily` (the default), 3 / 8 / 31 for the other periods. -/
def prevDaysToSubtract : Period → Nat
  | .h48 => 3
  | .weekly => 8
  | .monthly => 31
  | .daily => 2

/-- The comparison fetch `fetchPreviousPeriodData` (lines 151–175): raw fetch of the comparison
day plus the page filter; no enrichment.  Errors propagate (no `try`/`catch`
in this revision). -/
def fetchPreviousPeriodData (remote : String → Nat → Option Payload) (now : Nat)
    (dateFor : Nat → String) (language : Language) (period : Period) (c : Cache) :
    Except Unit (List Article) × Cache :=
  let formattedDate := dateFor (prevDaysToSubtract period)
  let url := topUrl language formattedDate
  match fetchFromAPI remote now url c with
  | ⟨.error _, c1, _⟩ => (.error (), c1)
  | ⟨.ok (.api (first :: _)), c1, _⟩ => (.ok (filterUnwantedPages first.articles), c1)
  | ⟨.ok _, c1, _⟩ => (.error (), c1)

/-- The operation `fetchTrendingArticles` (lines 135–146): current top list (never
Swiss-filtered), previous-period list, trend computation, optional relevance
filter, cap at 50.  Errors of either snapshot fetch propagate. -/
def fetchTrendingArticles (remote : String → Nat → Option Payload) (now : Nat)
    (dateFor : Nat → String) (language : Language) (period : Period) (swissOnly : Bool)
    (c : Cache) : Except Unit (List Article) × Cache :=
  match fetchTopArticles remote now dateFor language period false c with
  | (.error _, c1) => (.error (), c1)
  | (.ok currentData, c1) =>
    match fetchPreviousPeriodData remote now dateFor language period c1 with
    | (.error _, c2) => (.error (), c2)
    | (.ok previousData, c2) =>
      let trendingArticles := calculateTrendsImproved currentData previousData
      let (trendingArticles, c3) :=
        if swissOnly then filterSwissArticlesV2 remote now trendingArticles language c2
        else (trendingArticles, c2)
      (.ok (trendingArticles.take 50), c3)

/-! ## Experiments and helper lemmas -/

/-- The experiment of claim C4: fetch each key in turn, keeping the cache. -/
def insertKeys (remote : String → Nat → Option Payload) (now : Nat)
    (keys : List String) (c : Cache) : Cache :=
  keys.foldl (fun cache k => (fetchFromAPI remote now k cache).cache) c

/-- The 101 distinct keys of the C4 witness. -/
def c4keys : List String := (List.range (MAX_CACHE_SIZE + 1)).map (fun n => toString n)

/-- Concrete current article for the C7 / C10 witnesses. -/
def witCur : Article := ⟨"A", 10100, none, none, none, none, none⟩

/-- Concrete previous article for the C7 / C10 witnesses. -/
def witPrev : Article := ⟨"A", 100, none, none, none, none, none⟩

/-- Numeric rank of a reliability tier, `high` first. -/
def tierRank : Option Reliability → Nat
  | some .high => 0
  | some .medium => 1
  | some .low => 2
  | none => 3

/-- A globally total, transitive order that agrees with the source's
comparator on every article the sort can actually see (tier `high` or
`medium`): rank first, then descending growth. -/
def keyLE (a b : Article) : Bool :=
  tierRank a.reliability < tierRank b.reliability ||
    (tierRank a.reliability == tierRank b.reliability &&
      decide ((b.growth.getD 0) ≤ (a.growth.getD 0)))

/-- A category-relevant but not keyword-relevant article (C3). -/
def mattA : Article := ⟨"Matterhorn", 100, none, none, none, none, none⟩

/-- A keyword-relevant article (C3). -/
def berneA : Article := ⟨"Berne", 50, none, none, none, none, none⟩

/-- Article `mattA` as tagged by the C3 enricher. -/
def mattATagged : Article :=
  { mattA with
    metadata := some ⟨some "", some "", some ["Sommets des Alpes suisses"], some ""⟩ }

/-- An enricher that attaches a Swiss category to every article (C3). -/
def c3enrich : List Article → Cache → List Article × Cache := fun batch c =>
  (batch.map (fun a =>
    { a with
      metadata := some ⟨some "", some "", some ["Sommets des Alpes suisses"], some ""⟩ }), c)

/-- Holds when `b` is `a` with at most the `metadata` field changed — the
only field the enricher may alter (C3). -/
def metadataOnlyChange (a b : Article) : Prop :=
  b = { a with metadata := b.metadata }

/-- Ten keyword-matching articles (C9 / C3 witnesses). -/
def c9articles : List Article :=
  [⟨"Bern_0", 1, none, none, none, none, none⟩,
   ⟨"Bern_1", 2, none, none, none, none, none⟩,
   ⟨"Bern_2", 3, none, none, none, none, none⟩,
   ⟨"Bern_3", 4, none, none, none, none, none⟩,
   ⟨"Bern_4", 5, none, none, none, none, none⟩,
   ⟨"Bern_5", 6, none, none, none, none, none⟩,
   ⟨"Bern_6", 7, none, none, none, none, none⟩,
   ⟨"Bern_7", 8, none, none, none, none, none⟩,
   ⟨"Bern_8", 9, none, none, none, none, none⟩,
   ⟨"Bern_9", 10, none, none, none, none, none⟩]

theorem retryLoop_allFail (remote : String → Nat → Option Payload) (url : String)
    (now : Nat) (h : ∀ n, remote url n = none) :
    ∀ (retries attempt : Nat) (c : Cache),
      retryLoop remote url now retries attempt c = ⟨.error (), c, retries⟩
  | 0, _, _ => rfl
  | retries + 1, attempt, c => by
    simp only [retryLoop, h attempt,
      retryLoop_allFail remote url now h retries (attempt + 1) c]

theorem cacheGet_nil (k : String) : cacheGet [] k = none := rfl

theorem fetchFromAPI_nil_allFail (remote : String → Nat → Option Payload) (now : Nat)
    (url : String) (h : ∀ n, remote url n = none) :
    fetchFromAPI remote now url [] = ⟨.error (), [], 3⟩ := by
  simp only [fetchFromAPI, cacheGet_nil, retryLoop_allFail remote url now h]

theorem cacheGet_not_mem (c : Cache) (k : String) (h : k ∉ c.map Prod.fst) :
    cacheGet c k = none := by
  have hf : c.find? (fun p => p.1 == k) = none := by
    apply List.find?_eq_none.mpr
    intro p hp
    simp only [beq_iff_eq]
    exact fun hk => h (hk ▸ List.mem_map_of_mem Prod.fst hp)
  simp [cacheGet, hf]

theorem assocSet_not_mem {β : Type} (c : List (String × β)) (k : String) (v : β)
    (h : k ∉ c.map Prod.fst) : assocSet c k v = c ++ [(k, v)] := by
  unfold assocSet
  rw [if_neg]
  simp only [List.any_eq_true, beq_iff_eq, not_exists, not_and]
  intro p hp hk
  exact h (hk ▸ List.mem_map_of_mem Prod.fst hp)

theorem cacheInsert_small (c : Cache) (k : String) (v : CacheEntry)
    (hlen : c.length < MAX_CACHE_SIZE) (h : k ∉ c.map Prod.fst) :
    cacheInsert c k v = c ++ [(k, v)] := by
  unfold cacheInsert
  rw [if_neg (by omega), assocSet_not_mem c k v h]

theorem cacheInsert_full (c : Cache) (k : String) (v : CacheEntry)
    (hlen : MAX_CACHE_SIZE ≤ c.length) (h : k ∉ c.map Prod.fst) :
    cacheInsert c k v = c.tail ++ [(k, v)] := by
  unfold cacheInsert
  rw [if_pos hlen, assocSet_not_mem c.tail k v]
  intro hmem
  exact h (List.map_subset Prod.fst (List.tail_subset c) hmem)

theorem fetchFromAPI_miss_hit0 (remote : String → Nat → Option Payload) (now : Nat)
    (url : String) (c : Cache) (p : Payload) (hc : cacheGet c url = none)
    (hp : remote url 0 = some p) :
    fetchFromAPI remote now url c = ⟨.ok p, cacheInsert c url ⟨p, now⟩, 1⟩ := by
  simp only [fetchFromAPI, hc, retryLoop, hp]

theorem insertKeys_bounded (remote : String → Nat → Option Payload)
    (payload : String → Payload) (now : Nat)
    (hp : ∀ k, remote k 0 = some (payload k)) :
    ∀ (keys : List String) (c : Cache),
      (c.map Prod.fst ++ keys).Nodup → c.length + keys.length ≤ MAX_CACHE_SIZE →
      insertKeys remote now keys c = c ++ keys.map fun k => (k, ⟨payload k, now⟩) := by
  intro keys
  induction keys with
  | nil => intro c _ _; simp [insertKeys]
  | cons k ks ih =>
    intro c hnd hlen
    have hk : k ∉ c.map Prod.fst := by
      intro hmem
      rcases List.nodup_append.mp hnd with ⟨_, _, hdisj⟩
      exact hdisj hmem (by simp)
    have hstep : (fetchFromAPI remote now k c).cache = c ++ [(k, ⟨payload k, now⟩)] := by
      rw [fetchFromAPI_miss_hit0 remote now k c (payload k) (cacheGet_not_mem c k hk) (hp k)]
      exact cacheInsert_small c k _ (by simp at hlen; omega) hk
    have hrec := ih (c ++ [(k, ⟨payload k, now⟩)])
      (by simpa [List.append_assoc] using hnd)
      (by simp at hlen ⊢; omega)
    calc insertKeys remote now (k :: ks) c
        = insertKeys remote now ks (c ++ [(k, ⟨payload k, now⟩)]) := by
          simp [insertKeys, hstep]
      _ = c ++ (k :: ks).map (fun k => (k, (⟨payload k, now⟩ : CacheEntry))) := by
          rw [hrec]; simp

theorem assocSet_get_self (c : Cache) (k : String) (v : CacheEntry) :
    cacheGet (assocSet c k v) k = some v := by
  unfold assocSet
  by_cases hany : c.any (fun p => p.1 == k) = true
  · rw [if_pos hany]
    induction c with
    | nil => simp at hany
    | cons p ps ih =>
      by_cases hpk : p.1 = k
      · simp [cacheGet, List.find?_cons, hpk]
      · have hps : ps.any (fun p => p.1 == k) = true := by
          simpa [List.any_cons, hpk] using hany
        simpa [cacheGet, List.find?_cons, hpk] using ih hps
  · rw [if_neg hany]
    have hf : c.find? (fun p => p.1 == k) = none := by
      apply List.find?_eq_none.mpr
      intro p hp hb
      exact hany (List.any_eq_true.mpr ⟨p, hp, hb⟩)
    simp [cacheGet, List.find?_append, hf, List.find?_cons]

theorem cacheInsert_get_self (c : Cache) (k : String) (v : CacheEntry) :
    cacheGet (cacheInsert c k v) k = some v := by
  unfold cacheInsert
  exact assocSet_get_self _ k v

theorem retryLoop_calls_pos (remote : String → Nat → Option Payload) (url : String)
    (now : Nat) (retries attempt : Nat) (c : Cache) :
    1 ≤ (retryLoop remote url now (retries + 1) attempt c).calls := by
  unfold retryLoop
  cases remote url attempt <;> simp

theorem retryLoop_keeps_key (remote : String → Nat → Option Payload) (url : String)
    (now : Nat) :
    ∀ (retries attempt : Nat) (c : Cache), (cacheGet c url).isSome →
      (cacheGet (retryLoop remote url now retries attempt c).cache url).isSome
  | 0, _, c, h => h
  | retries + 1, attempt, c, h => by
    unfold retryLoop
    cases remote url attempt with
    | some data => simp [cacheInsert_get_self c url ⟨data, now⟩]
    | none => exact retryLoop_keeps_key remote url now retries (attempt + 1) c h

/-! ## Claim C1 -/

/-- Claim C1, counterexample:  With a remote that fails every attempt (all
retries exhausted) and an empty cache, both top-level operations return the
propagated error, not the empty list the claim asserts: `api.ts` has no
`try`/`catch` in `fetchTopArticles` / `fetchTrendingArticles`, so the raw
error reaches the display layer (which catches it in `App.tsx`). -/
theorem c1_counterexample :
    (fetchTopArticles (fun _ _ => none) 0 (fun _ => "20250101") .fr .daily false []).1
        = Except.error () ∧
    (fetchTrendingArticles (fun _ _ => none) 0 (fun _ => "20250101") .fr .daily false []).1
        = Except.error () ∧
    (fetchTopArticles (fun _ _ => none) 0 (fun _ => "20250101") .fr .daily false []).1
        ≠ Except.ok ([] : List Article) := by
  refine ⟨rfl, rfl, fun h => ?_⟩
  rw [show (fetchTopArticles (fun _ _ => none) 0 (fun _ => "20250101")
      Language.fr Period.daily false []).1 = Except.error () from rfl] at h
  exact Except.noConfusion h

/-- Claim C1, amended:  For every language edition, period and Swiss-only
flag, if the primary snapshot fetch fails unrecoverably (all retries
exhausted), `fetchTopArticles` and `fetchTrendingArticles` *propagate the
error* to the caller (and leave the cache untouched); they do not translate
it into an empty list — that translation existed only in the superseded
revision of the pipeline, and the display layer now catches the error
instead. -/
theorem c1_amended_failure_propagates (remote : String → Nat → Option Payload)
    (now : Nat) (dateFor : Nat → String) (language : Language) (period : Period)
    (swissOnly : Bool) (hfail : ∀ u n, remote u n = none) :
    fetchTopArticles remote now dateFor language period swissOnly [] = (.error (), []) ∧
    fetchTrendingArticles remote now dateFor language period swissOnly [] = (.error (), []) := by
  have htop : ∀ so : Bool,
      fetchTopArticles remote now dateFor language period so [] = (.error (), []) := by
    intro so
    unfold fetchTopArticles
    simp only [fetchFromAPI_nil_allFail remote now _ (fun n => hfail _ n)]
  refine ⟨htop swissOnly, ?_⟩
  unfold fetchTrendingArticles
  rw [htop false]

/-- Witness for `c1_amended_failure_propagates` at a concrete failing remote. -/
theorem c1_amended_failure_propagates_witness :
    fetchTopArticles (fun _ _ => none) 7 (fun _ => "20250101") .de .weekly true []
        = (.error (), []) ∧
    fetchTrendingArticles (fun _ _ => none) 7 (fun _ => "20250101") .de .weekly true []
        = (.error (), []) :=
  c1_amended_failure_propagates (fun _ _ => none) 7 (fun _ => "20250101") .de .weekly true
    (fun _ _ => rfl)

/-! ## Claim C4 -/

/-- Claim C4:  Starting from the empty cache, fetching `MAX_CACHE_SIZE + 1 = 101`
distinct keys (each answered by the remote at its first attempt) leaves the
cache holding exactly the keys in insertion order with only the
first-inserted key evicted (`keys.drop 1`); moreover a read access that hits
a fresh entry returns it immediately and leaves the whole cache — hence every
entry's position — unchanged (FIFO, not LRU). -/
theorem c4_fifo_eviction (remote : String → Nat → Option Payload)
    (payload : String → Payload) (now : Nat) (keys : List String)
    (hp : ∀ k, remote k 0 = some (payload k)) (hnd : keys.Nodup)
    (hlen : keys.length = MAX_CACHE_SIZE + 1) :
    (insertKeys remote now keys []).map Prod.fst = keys.drop 1 ∧
    (∀ (c : Cache) (k : String) (e : CacheEntry), cacheGet c k = some e →
      now - e.timestamp < CACHE_TTL → fetchFromAPI remote now k c = ⟨.ok e.data, c, 0⟩) := by
  constructor
  · have hsplit : keys = keys.take MAX_CACHE_SIZE ++ keys.drop MAX_CACHE_SIZE :=
      (List.take_append_drop _ keys).symm
    set A := keys.take MAX_CACHE_SIZE with hA
    have hAlen : A.length = MAX_CACHE_SIZE := by
      rw [hA, List.length_take]; omega
    obtain ⟨klast, hB⟩ : ∃ klast, keys.drop MAX_CACHE_SIZE = [klast] :=
      List.length_eq_one.mp (by rw [List.length_drop]; omega)
    have hndA : A.Nodup := hnd.sublist (List.take_sublist _ keys)
    have hklast : klast ∉ A := by
      have h2 := hnd
      rw [hsplit, hB] at h2
      exact fun hm => (List.nodup_append.mp h2).2.2 hm (by simp)
    have h1 : insertKeys remote now A [] = A.map (fun k => (k, ⟨payload k, now⟩)) := by
      have := insertKeys_bounded remote payload now hp A [] (by simpa using hndA)
        (by simp [hAlen])
      simpa using this
    have hget : cacheGet (A.map fun k => (k, ⟨payload k, now⟩)) klast = none := by
      apply cacheGet_not_mem
      simpa using hklast
    have hfetch : (fetchFromAPI remote now klast
        (A.map fun k => (k, ⟨payload k, now⟩))).cache
        = (A.map fun k => (k, ⟨payload k, now⟩)).tail ++ [(klast, ⟨payload klast, now⟩)] := by
      rw [fetchFromAPI_miss_hit0 remote now klast _ (payload klast) hget (hp klast)]
      apply cacheInsert_full
      · simp [hAlen]
      · simpa using hklast
    calc (insertKeys remote now keys []).map Prod.fst
        = (insertKeys remote now (A ++ [klast]) []).map Prod.fst := by
          rw [← hB, ← hsplit]
      _ = ((fetchFromAPI remote now klast (insertKeys remote now A [])).cache).map
            Prod.fst := by
          simp [insertKeys, List.foldl_append]
      _ = A.tail ++ [klast] := by
          rw [h1, hfetch]
          simp [← List.map_tail, Function.comp_def]
      _ = keys.drop 1 := by
          rw [hsplit, hB, List.drop_append_of_le_length (by rw [hAlen]; decide),
            List.drop_one]
  · intro c k e hget hfresh
    simp [fetchFromAPI, hget, hfresh]

/-- Witness for `c4_fifo_eviction` at concrete keys and remote. -/
theorem c4_fifo_eviction_witness :
    (insertKeys (fun _ _ => some (.api [])) 0 c4keys []).map Prod.fst = c4keys.drop 1 ∧
    (∀ (c : Cache) (k : String) (e : CacheEntry), cacheGet c k = some e →
      0 - e.timestamp < CACHE_TTL →
      fetchFromAPI (fun _ _ => some (.api [])) 0 k c = ⟨.ok e.data, c, 0⟩) :=
  c4_fifo_eviction (fun _ _ => some (.api [])) (fun _ => .api []) 0 c4keys
    (fun _ => rfl) (by decide) (by decide)

/-! ## Claim C5 -/

/-- Claim C5:  When `fetchFromAPI` reads a key that is present in the cache:
if the entry is older than the 15-minute TTL it is treated exactly as a cache
miss — the retry loop runs, at least one remote request is issued, and the
key stays physically present in the cache afterwards (it is only overwritten
on success or left alone on failure, never dropped by the read); if the entry
is fresh it is returned immediately, with zero remote requests and the cache
unchanged. -/
theorem c5_ttl_read_behaviour (remote : String → Nat → Option Payload) (now : Nat)
    (url : String) (c : Cache) (e : CacheEntry) (hhit : cacheGet c url = some e) :
    (¬ now - e.timestamp < CACHE_TTL →
      fetchFromAPI remote now url c = retryLoop remote url now 3 0 c ∧
      1 ≤ (fetchFromAPI remote now url c).calls ∧
      (cacheGet (fetchFromAPI remote now url c).cache url).isSome) ∧
    (now - e.timestamp < CACHE_TTL →
      fetchFromAPI remote now url c = ⟨.ok e.data, c, 0⟩) := by
  constructor
  · intro hstale
    have heq : fetchFromAPI remote now url c = retryLoop remote url now 3 0 c := by
      simp [fetchFromAPI, hhit, hstale]
    refine ⟨heq, ?_, ?_⟩
    · rw [heq]; exact retryLoop_calls_pos remote url now 2 0 c
    · rw [heq]
      exact retryLoop_keeps_key remote url now 3 0 c (by simp [hhit])
  · intro hfresh
    simp [fetchFromAPI, hhit, hfresh]

/-- Witness for `c5_ttl_read_behaviour`: one stale read (entry written at
time 0, read at `CACHE_TTL + 1`) and one fresh read (read at time 1). -/
theorem c5_ttl_read_behaviour_witness :
    (fetchFromAPI (fun _ _ => some (.api [])) (CACHE_TTL + 1) "u" [("u", ⟨.mw [], 0⟩)]
        = retryLoop (fun _ _ => some (.api [])) "u" (CACHE_TTL + 1) 3 0
            [("u", ⟨.mw [], 0⟩)] ∧
      1 ≤ (fetchFromAPI (fun _ _ => some (.api [])) (CACHE_TTL + 1) "u"
            [("u", ⟨.mw [], 0⟩)]).calls ∧
      (cacheGet (fetchFromAPI (fun _ _ => some (.api [])) (CACHE_TTL + 1) "u"
            [("u", ⟨.mw [], 0⟩)]).cache "u").isSome) ∧
    fetchFromAPI (fun _ _ => some (.api [])) 1 "u" [("u", ⟨.mw [], 0⟩)]
        = ⟨.ok (.mw []), [("u", ⟨.mw [], 0⟩)], 0⟩ :=
  ⟨(c5_ttl_read_behaviour (fun _ _ => some (.api [])) (CACHE_TTL + 1) "u"
      [("u", ⟨.mw [], 0⟩)] ⟨.mw [], 0⟩ (by decide)).1 (by decide),
   (c5_ttl_read_behaviour (fun _ _ => some (.api [])) 1 "u"
      [("u", ⟨.mw [], 0⟩)] ⟨.mw [], 0⟩ (by decide)).2 (by decide)⟩

/-! ## Claim C2 -/

theorem isPrefixOf_map_underscore {p : List Char} (hp : ∀ ch ∈ p, ch ≠ ' ') :
    ∀ {s : List Char}, p.isPrefixOf (s.map underscoreToSpace) = true →
      p.isPrefixOf s = true := by
  induction p with
  | nil => intro s _; simp [List.isPrefixOf]
  | cons a as ih =>
    intro s h
    cases s with
    | nil => simp [List.isPrefixOf] at h
    | cons b bs =>
      simp only [List.map_cons, List.isPrefixOf, Bool.and_eq_true, beq_iff_eq] at h ⊢
      obtain ⟨hab, htail⟩ := h
      have hb : underscoreToSpace b = b := by
        by_cases hb' : b = '_'
        · exfalso
          apply hp a (by simp)
          rw [hab, hb']
          rfl
        · simp [underscoreToSpace, hb']
      exact ⟨by rw [hab, hb], ih (fun ch hch => hp ch (by simp [hch])) htail⟩

theorem map_underscore_no_underscore (s : List Char) :
    '_' ∉ s.map underscoreToSpace := by
  simp only [List.mem_map, not_exists, not_and]
  intro ch _ h
  by_cases hc : ch = '_' <;> simp [underscoreToSpace, hc] at h

theorem map_underscore_eq_of_no_space :
    ∀ {s e : List Char}, ' ' ∉ e → s.map underscoreToSpace = e → s = e := by
  intro s
  induction s with
  | nil => intro e _ h; exact h
  | cons c cs ih =>
    intro e he h
    cases e with
    | nil => simp at h
    | cons d ds =>
      simp only [List.map_cons, List.cons.injEq] at h ⊢
      obtain ⟨hcd, htail⟩ := h
      have hc : underscoreToSpace c = c := by
        by_cases hc' : c = '_'
        · exfalso
          apply he
          rw [← hcd, hc']
          simp [underscoreToSpace]
        · simp [underscoreToSpace, hc']
      exact ⟨by rw [← hcd, hc], ih (fun hm => he (by simp [hm])) htail⟩

theorem unwantedPrefixes_no_space : ∀ pre ∈ unwantedPrefixes, ∀ ch ∈ pre.data, ch ≠ ' ' := by
  decide

theorem unwantedPages_underscore_or_no_space :
    ∀ e ∈ unwantedPages, '_' ∈ e.data ∨ ' ' ∉ e.data := by
  decide

/-- Claim C2:  Every article surviving `filterUnwantedPages` has a title that,
after decoding and space-normalization (underscores standing in for spaces),
neither starts with any of the fixed unwanted namespace name starts nor
equals any of the fixed unwanted page titles.  (The code compares the
decoded, *not* normalized title; the property nevertheless holds for the
normalized form: no unwanted namespace start contains a space, and every
unwanted exact title either contains an underscore — which a normalized
title cannot — or contains neither spaces nor underscores, in which case
normalization is the identity.) -/
theorem c2_page_filter_normalized (articles : List Article) (a : Article)
    (ha : a ∈ filterUnwantedPages articles) :
    (∀ pre ∈ unwantedPrefixes,
      startsWithJS (replaceUnderscores (decodeD a.article)) pre = false) ∧
    unwantedPages.contains (replaceUnderscores (decodeD a.article)) = false := by
  have h := (List.mem_filter.mp ha).2
  rw [Bool.and_eq_true, Bool.not_eq_true', Bool.not_eq_true'] at h
  obtain ⟨h1, h2⟩ := h
  rw [List.any_eq_false] at h1
  constructor
  · intro pre hpre
    by_contra hc
    rw [Bool.not_eq_false] at hc
    apply h1 pre hpre
    exact isPrefixOf_map_underscore (unwantedPrefixes_no_space pre hpre) hc
  · by_contra hc
    rw [Bool.not_eq_false] at hc
    have hmem : replaceUnderscores (decodeD a.article) ∈ unwantedPages := by
      simpa [List.contains] using hc
    rcases unwantedPages_underscore_or_no_space _ hmem with hu | hs
    · exact map_underscore_no_underscore (decodeD a.article).data hu
    · have hseq : (decodeD a.article).data
          = (replaceUnderscores (decodeD a.article)).data :=
        map_underscore_eq_of_no_space hs rfl
      rw [← String.ext hseq] at hmem
      have hcontr : unwantedPages.contains (decodeD a.article) = true := by
        simpa [List.contains] using hmem
      rw [h2] at hcontr
      exact Bool.noConfusion hcontr

/-- Witness for `c2_page_filter_normalized` on a concrete surviving article. -/
theorem c2_page_filter_normalized_witness :
    (∀ pre ∈ unwantedPrefixes,
      startsWithJS (replaceUnderscores (decodeD "Ast%C3%A9rix_le_Gaulois")) pre = false) ∧
    unwantedPages.contains (replaceUnderscores (decodeD "Ast%C3%A9rix_le_Gaulois")) = false :=
  c2_page_filter_normalized [⟨"Ast%C3%A9rix_le_Gaulois", 12, none, none, none, none, none⟩]
    ⟨"Ast%C3%A9rix_le_Gaulois", 12, none, none, none, none, none⟩ (by decide)

/-! ## Claim C6 -/

/-- Claim C6:  For every current/previous snapshot pair and current article
whose previous view count is below the reliability floor of 100 — in
particular an article absent from the previous snapshot, whose previous view
count is 0 — the per-article step of the trend calculator emits the article
with `growth = 0`, `growthPercentage = 0`, that `previousViews` value, and
`reliability = low`. -/
theorem c6_below_floor_low_tier (previousArticles : List Article) (current : Article)
    (h : previousViewsOf previousArticles current < 100) :
    trendEntry previousArticles current =
      { current with
        growth := some 0
        growthPercentage := some 0
        previousViews := some (previousViewsOf previousArticles current)
        reliability := some .low } ∧
    (lastMatch previousArticles current.article = none →
      previousViewsOf previousArticles current = 0) := by
  constructor
  · unfold trendEntry
    rw [if_pos h]
  · intro hn
    unfold previousViewsOf
    rw [hn]

/-- Witness for `c6_below_floor_low_tier`: an article absent from the
previous snapshot. -/
theorem c6_below_floor_low_tier_witness :
    trendEntry [] ⟨"A", 5, none, none, none, none, none⟩ =
      { (⟨"A", 5, none, none, none, none, none⟩ : Article) with
        growth := some 0
        growthPercentage := some 0
        previousViews := some (previousViewsOf [] ⟨"A", 5, none, none, none, none, none⟩)
        reliability := some .low } ∧
    (lastMatch [] (Article.article ⟨"A", 5, none, none, none, none, none⟩) = none →
      previousViewsOf [] ⟨"A", 5, none, none, none, none, none⟩ = 0) :=
  c6_below_floor_low_tier [] ⟨"A", 5, none, none, none, none, none⟩ (by decide)

/-! ## Claims C7 / C8 / C10: the trend calculator's output -/

/-- Every article in the filtered trend pool (the sort input) has a present,
strictly positive growth and tier `high` or `medium`. -/
theorem mem_trendPool {currentArticles previousArticles : List Article} {a : Article}
    (h : a ∈ (currentArticles.map (trendEntry previousArticles)).filter trendKeep) :
    (∃ g : Int, a.growth = some g ∧ 0 < g) ∧
    (a.reliability = some .high ∨ a.reliability = some .medium) := by
  obtain ⟨hm, hk⟩ := List.mem_filter.mp h
  obtain ⟨cur, hcur, rfl⟩ := List.mem_map.mp hm
  refine ⟨?_, ?_⟩
  · unfold trendKeep at hk
    cases hg : (trendEntry previousArticles cur).growth with
    | none => rw [hg] at hk; exact Bool.noConfusion hk
    | some g =>
      rw [hg] at hk
      exact ⟨g, rfl, of_decide_eq_true hk⟩
  · unfold trendEntry at hk ⊢
    by_cases hpv : previousViewsOf previousArticles cur < 100
    · rw [if_pos hpv] at hk
      simp [trendKeep] at hk
    · rw [if_neg hpv] at hk ⊢
      by_cases hr : 10000 < cur.views ∧ 1000 < previousViewsOf previousArticles cur
      · left; simp [hr]
      · right; simp [hr]

/-- Claim C7:  The trend calculator's output never contains an article with
`growth ≤ 0` (or without a growth field): every output article has a present,
strictly positive growth. -/
theorem c7_positive_growth_only (currentArticles previousArticles : List Article)
    (a : Article) (h : a ∈ calculateTrendsImproved currentArticles previousArticles) :
    ∃ g : Int, a.growth = some g ∧ 0 < g := by
  unfold calculateTrendsImproved at h
  rw [List.mem_mergeSort] at h
  exact (mem_trendPool h).1

/-- Claim C10:  Every article in the trend calculator's output has tier `high`
or `medium`; a `low`-tier article can never appear (it is emitted with
`growth = 0` and the output keeps only strictly positive growth). -/
theorem c10_no_low_tier_in_output (currentArticles previousArticles : List Article)
    (a : Article) (h : a ∈ calculateTrendsImproved currentArticles previousArticles) :
    a.reliability = some .high ∨ a.reliability = some .medium := by
  unfold calculateTrendsImproved at h
  rw [List.mem_mergeSort] at h
  exact (mem_trendPool h).2

theorem wit_trend_eval :
    calculateTrendsImproved [witCur] [witPrev] = [trendEntry [witPrev] witCur] := by
  have hkeep : trendKeep (trendEntry [witPrev] witCur) = true := by decide
  unfold calculateTrendsImproved
  simp [List.filter, hkeep]

/-- Witness for `c7_positive_growth_only` at a concrete snapshot pair. -/
theorem c7_positive_growth_only_witness :
    ∃ g : Int, (trendEntry [witPrev] witCur).growth = some g ∧ 0 < g :=
  c7_positive_growth_only [witCur] [witPrev] (trendEntry [witPrev] witCur)
    (by rw [wit_trend_eval]; exact List.mem_singleton_self _)

/-- Witness for `c10_no_low_tier_in_output` at a concrete snapshot pair. -/
theorem c10_no_low_tier_in_output_witness :
    (trendEntry [witPrev] witCur).reliability = some .high ∨
    (trendEntry [witPrev] witCur).reliability = some .medium :=
  c10_no_low_tier_in_output [witCur] [witPrev] (trendEntry [witPrev] witCur)
    (by rw [wit_trend_eval]; exact List.mem_singleton_self _)

/-! ## Claim C8 -/

theorem trendLE_eq_keyLE {a b : Article}
    (ha : a.reliability = some .high ∨ a.reliability = some .medium)
    (hb : b.reliability = some .high ∨ b.reliability = some .medium) :
    trendLE a b = keyLE a b := by
  rcases ha with ha | ha <;> rcases hb with hb | hb <;>
    simp [trendLE, trendCompare, keyLE, tierRank, ha, hb, sub_nonpos]

theorem keyLE_trans : ∀ (a b c : Article), keyLE a b → keyLE b c → keyLE a c := by
  intro a b c hab hbc
  simp only [keyLE, Bool.or_eq_true, Bool.and_eq_true, decide_eq_true_eq,
    beq_iff_eq] at hab hbc ⊢
  omega

theorem keyLE_total : ∀ (a b : Article), keyLE a b || keyLE b a := by
  intro a b
  simp only [keyLE, Bool.or_eq_true, Bool.and_eq_true, decide_eq_true_eq, beq_iff_eq]
  omega

/-- Claim C8:  In the trend calculator's output, a `high`-tier article precedes
every lower-tier article (whatever their growths), and among articles of
equal tier the order is descending by absolute growth: for every earlier
article `a` and later article `b`, if `b` is `high` then so is `a`, and equal
tiers force `|growth b| ≤ |growth a|`. -/
theorem c8_output_order (currentArticles previousArticles : List Article) :
    (calculateTrendsImproved currentArticles previousArticles).Pairwise
      (fun a b =>
        (b.reliability = some .high → a.reliability = some .high) ∧
        (a.reliability = b.reliability →
          (b.growth.getD 0).natAbs ≤ (a.growth.getD 0).natAbs)) := by
  unfold calculateTrendsImproved
  have hagree : ∀ x ∈ (currentArticles.map (trendEntry previousArticles)).filter trendKeep,
      ∀ y ∈ (currentArticles.map (trendEntry previousArticles)).filter trendKeep,
      trendLE x y = keyLE x y := fun x hx y hy =>
    trendLE_eq_keyLE (mem_trendPool hx).2 (mem_trendPool hy).2
  have hcongr := List.map_mergeSort (f := @id Article) (s := keyLE) hagree
  rw [List.map_id, List.map_id] at hcongr
  rw [hcongr]
  have hsorted := List.sorted_mergeSort keyLE_trans keyLE_total
    ((currentArticles.map (trendEntry previousArticles)).filter trendKeep)
  refine List.Pairwise.imp_of_mem ?_ hsorted
  intro a b hma hmb hab
  have hPa := mem_trendPool (List.mem_mergeSort.mp hma)
  have hPb := mem_trendPool (List.mem_mergeSort.mp hmb)
  obtain ⟨⟨ga, hga, hgapos⟩, hra⟩ := hPa
  obtain ⟨⟨gb, hgb, hgbpos⟩, hrb⟩ := hPb
  simp only [keyLE, Bool.or_eq_true, Bool.and_eq_true, decide_eq_true_eq,
    beq_iff_eq] at hab
  constructor
  · intro hbh
    rcases hra with hra | hra
    · exact hra
    · exfalso
      rw [hra, hbh] at hab
      simp [tierRank] at hab
  · intro hreq
    have hrank : ¬ tierRank a.reliability < tierRank b.reliability := by
      rw [hreq]; omega
    rcases hab with hlt | ⟨_, hle⟩
    · exact absurd hlt hrank
    · rw [hga, hgb] at hle ⊢
      simp only [Option.getD_some] at hle ⊢
      omega

/-! ## Claim C9 -/

/-- Claim C9:  Whenever stage 1 of the relevance filter matches at least 10
articles, the filter returns exactly the keyword-matched subset, leaves the
cache untouched, and never calls the enrichment path: the result is the same
for *every* enrichment function. -/
theorem c9_stage1_short_circuit (articles : List Article)
    (enrich : List Article → Cache → List Article × Cache) (c : Cache)
    (h : 10 ≤ (swissKeywordFilter articles).length) :
    filterSwissArticlesV2Gen enrich articles c = (swissKeywordFilter articles, c) := by
  simp only [filterSwissArticlesV2Gen]
  rw [if_pos h]

/-- Witness for `c9_stage1_short_circuit`: ten keyword-matching articles. -/
theorem c9_stage1_short_circuit_witness :
    filterSwissArticlesV2Gen (fun batch c1 => (batch, c1)) c9articles []
      = (swissKeywordFilter c9articles, []) :=
  c9_stage1_short_circuit c9articles (fun batch c1 => (batch, c1)) [] (by decide)

/-! ## Claim C3 -/

/-- Claim C3, counterexample:  With an enricher that tags every article with a
Swiss category, the input `[mattA, berneA]` (one category-relevant article
before one keyword-relevant article) makes the relevance filter return the
keyword match *first* and the category match second — not a subsequence of
the input, because stage 2 appends category matches after the stage-1 set. -/
theorem c3_counterexample :
    ¬ List.Sublist (filterSwissArticlesV2Gen c3enrich [mattA, berneA] []).1
        [mattA, berneA] := by
  have hkw : swissKeywordFilter [mattA, berneA] = [berneA] := by decide
  have heval : (filterSwissArticlesV2Gen c3enrich [mattA, berneA] []).1
      = [berneA, mattATagged] := by
    have hrem : List.filter (fun article =>
        !(List.any [berneA] fun filtered => filtered.article == article.article))
        [mattA, berneA] = [mattA] := by decide
    simp only [filterSwissArticlesV2Gen, hkw]
    rw [if_neg (by decide), hrem, stage2Loop]
    have henr : c3enrich ([mattA].take 50) [] = ([mattATagged], []) := by decide
    simp only [henr]
    have hcat : List.filter hasSwissCategory [mattATagged] = [mattATagged] := by decide
    rw [hcat]
    rw [if_neg (by decide)]
    rw [show List.drop 50 [mattA] = [] from by decide, stage2Loop]
    rfl
  intro hsub
  rw [heval] at hsub
  have hlen := hsub.eq_of_length (by decide)
  have hhead : berneA = mattA := (List.cons_eq_cons.mp hlen).1
  exact absurd hhead (by decide)

theorem forall₂_of_sublist_right {α β : Type} {R : α → β → Prop} :
    ∀ {l₁ : List α} {l₂ l₂' : List β}, List.Forall₂ R l₁ l₂ → List.Sublist l₂' l₂ →
      ∃ l₁', List.Sublist l₁' l₁ ∧ List.Forall₂ R l₁' l₂' := by
  intro l₁ l₂ l₂' hf
  induction hf generalizing l₂' with
  | nil =>
    intro hs
    rw [List.sublist_nil] at hs
    subst hs
    exact ⟨[], List.nil_sublist _, List.Forall₂.nil⟩
  | @cons a b as bs ha htail ih =>
    intro hs
    cases hs with
    | cons _ hs' =>
      obtain ⟨l₁', hsub, hf'⟩ := ih hs'
      exact ⟨l₁', List.Sublist.cons a hsub, hf'⟩
    | cons₂ _ hs' =>
      obtain ⟨l₁', hsub, hf'⟩ := ih hs'
      exact ⟨a :: l₁', List.Sublist.cons₂ a hsub, List.Forall₂.cons ha hf'⟩

theorem forall₂_metadataOnly_map {f : Article → Article}
    (hf : ∀ a, metadataOnlyChange a (f a)) :
    ∀ l : List Article, List.Forall₂ metadataOnlyChange l (l.map f)
  | [] => .nil
  | a :: as => .cons (hf a) (forall₂_metadataOnly_map hf as)

/-- One article of a batch, as transformed by the enricher's per-batch map:
at most the `metadata` field changes. -/
theorem enrichPoint_metadataOnly (md : List (String × MetaRecord)) (a : Article) :
    metadataOnlyChange a
      (match recordGet md (replaceUnderscores (decodeD a.article)) with
       | some articleMetadata =>
         { a with
           metadata := some ⟨some articleMetadata.description,
             some articleMetadata.thumbnail, some articleMetadata.categories,
             some articleMetadata.extract⟩ }
       | none => a) := by
  unfold metadataOnlyChange
  cases recordGet md (replaceUnderscores (decodeD a.article)) <;> rfl

theorem enrichLoop_metadataOnly (remote : String → Nat → Option Payload) (now : Nat)
    (language : Language) :
    ∀ (n : Nat) (articles : List Article), articles.length ≤ n →
      ∀ (acc accSrc : List Article) (c : Cache),
        List.Forall₂ metadataOnlyChange accSrc acc →
        List.Forall₂ metadataOnlyChange (accSrc ++ articles)
          (enrichLoop remote now language articles acc c).1 := by
  intro n
  induction n with
  | zero =>
    intro articles hlen acc accSrc c hacc
    have h0 : articles = [] := List.length_eq_zero.mp (Nat.le_zero.mp hlen)
    subst h0
    rw [enrichLoop]
    simpa using hacc
  | succ n ih =>
    intro articles hlen acc accSrc c hacc
    match articles with
    | [] =>
      rw [enrichLoop]
      simpa using hacc
    | a0 :: as0 =>
      rw [enrichLoop]
      rcases hg : getArticleMetadata remote now
          (((a0 :: as0).take 25).map fun article =>
            replaceUnderscores (decodeD article.article)) language c with ⟨md, c1⟩
      simp only [hg]
      have key : ∀ (f : Article → Article), (∀ a, metadataOnlyChange a (f a)) →
          List.Forall₂ metadataOnlyChange (accSrc ++ a0 :: as0)
            (enrichLoop remote now language ((a0 :: as0).drop 25)
              (acc ++ ((a0 :: as0).take 25).map f) c1).1 := by
        intro f hf
        have hres := ih ((a0 :: as0).drop 25) (by simp at hlen ⊢; omega)
          (acc ++ ((a0 :: as0).take 25).map f) (accSrc ++ (a0 :: as0).take 25) c1
          (List.rel_append hacc (forall₂_metadataOnly_map hf _))
        have hsplit : accSrc ++ (a0 :: as0).take 25 ++ (a0 :: as0).drop 25
            = accSrc ++ a0 :: as0 := by
          rw [List.append_assoc, List.take_append_drop]
        rwa [hsplit] at hres
      exact key _ (enrichPoint_metadataOnly md)

/-- The real enricher changes each input article at most in its `metadata`
field and returns the articles in input order (`Forall₂` fixes length and
pointwise correspondence). -/
theorem enrichArticlesWithMetadata_metadataOnly (remote : String → Nat → Option Payload)
    (now : Nat) (language : Language) (articles : List Article) (c : Cache) :
    List.Forall₂ metadataOnlyChange articles
      (enrichArticlesWithMetadata remote now articles language c).1 := by
  unfold enrichArticlesWithMetadata
  by_cases h : articles.isEmpty
  · rw [if_pos h]
    have h0 : articles = [] := List.isEmpty_iff.mp h
    subst h0
    exact .nil
  · rw [if_neg h]
    simpa using enrichLoop_metadataOnly remote now language articles.length articles
      le_rfl [] [] c .nil

/-- The stage-2 loop appends to `acc` exactly a block of category matches:
articles drawn in order from `rem` (an order-preserving selection `src`, a
subsequence of `rem`), each changed at most in its `metadata` field and each
passing the Swiss-category test. -/
theorem stage2Loop_spec (enrich : List Article → Cache → List Article × Cache)
    (henrich : ∀ batch c1, List.Forall₂ metadataOnlyChange batch (enrich batch c1).1) :
    ∀ (n : Nat) (rem : List Article), rem.length ≤ n → ∀ (acc : List Article) (c : Cache),
      ∃ rest src, (stage2Loop enrich rem acc c).1 = acc ++ rest ∧
        List.Sublist src rem ∧ List.Forall₂ metadataOnlyChange src rest ∧
        ∀ b ∈ rest, hasSwissCategory b = true := by
  intro n
  induction n with
  | zero =>
    intro rem hrem acc c
    have hnil : rem = [] := List.length_eq_zero.mp (Nat.le_zero.mp hrem)
    subst hnil
    exact ⟨[], [], by rw [stage2Loop]; simp, List.nil_sublist _, .nil, by simp⟩
  | succ n ih =>
    intro rem hrem acc c
    match rem with
    | [] => exact ⟨[], [], by rw [stage2Loop]; simp, List.nil_sublist _, .nil, by simp⟩
    | r0 :: rs =>
      rw [stage2Loop]
      rcases he : enrich ((r0 :: rs).take 50) c with ⟨enriched, c1⟩
      simp only [he]
      have hb2 : List.Forall₂ metadataOnlyChange ((r0 :: rs).take 50) enriched := by
        have h0 := henrich ((r0 :: rs).take 50) c
        rw [he] at h0
        exact h0
      obtain ⟨srcB, hsrcB, hfB⟩ :=
        forall₂_of_sublist_right hb2 (List.filter_sublist enriched)
      have hsrcB_rem : List.Sublist srcB (r0 :: rs) :=
        hsrcB.trans (List.take_sublist 50 (r0 :: rs))
      have hcatF : ∀ b ∈ enriched.filter hasSwissCategory, hasSwissCategory b = true :=
        fun b hb => (List.mem_filter.mp hb).2
      by_cases h50 : 50 ≤ (acc ++ enriched.filter hasSwissCategory).length
      · rw [if_pos h50]
        exact ⟨enriched.filter hasSwissCategory, srcB, rfl, hsrcB_rem, hfB, hcatF⟩
      · rw [if_neg h50]
        obtain ⟨rest1, src1, hr1, hs1, hf1, hcat1⟩ :=
          ih ((r0 :: rs).drop 50) (by simp at hrem ⊢; omega)
            (acc ++ enriched.filter hasSwissCategory) c1
        refine ⟨enriched.filter hasSwissCategory ++ rest1, srcB ++ src1, ?_, ?_, ?_, ?_⟩
        · rw [hr1, List.append_assoc]
        · have happ := List.Sublist.append hsrcB hs1
          rwa [List.take_append_drop] at happ
        · exact List.rel_append hfB hf1
        · intro b hb
          rcases List.mem_append.mp hb with hb | hb
          · exact hcatF b hb
          · exact hcat1 b hb

/-- Claim C3, amended:  The stage-1 keyword subset is a subsequence of the
input, and when it already has at least 10 articles the relevance filter
returns exactly that subsequence (so in the stage-1-only case the output *is*
a subsequence of the input).  In general the output of the real
`filterSwissArticlesV2` is the stage-1 subsequence followed by a segment of
category matches: articles drawn in input order from the remaining
(not keyword-matched) articles — an order-preserving selection `src` — each
changed at most in its `metadata` field by enrichment and each passing the
Swiss-category test.  Each segment preserves input order, but the
concatenation need not be a subsequence of the input. -/
theorem c3_amended_order (remote : String → Nat → Option Payload) (now : Nat)
    (language : Language) (articles : List Article) (c : Cache) :
    (swissKeywordFilter articles).Sublist articles ∧
    (10 ≤ (swissKeywordFilter articles).length →
      (filterSwissArticlesV2 remote now articles language c).1
        = swissKeywordFilter articles) ∧
    (∃ rest src,
      (filterSwissArticlesV2 remote now articles language c).1
          = swissKeywordFilter articles ++ rest ∧
      List.Sublist src (articles.filter fun article =>
        !((swissKeywordFilter articles).any fun filtered =>
            filtered.article == article.article)) ∧
      List.Forall₂ metadataOnlyChange src rest ∧
      ∀ b ∈ rest, hasSwissCategory b = true) := by
  refine ⟨List.filter_sublist _, ?_, ?_⟩
  · intro h
    simp only [filterSwissArticlesV2, filterSwissArticlesV2Gen]
    rw [if_pos h]
  · by_cases h : 10 ≤ (swissKeywordFilter articles).length
    · refine ⟨[], [], ?_, List.nil_sublist _, .nil, by simp⟩
      simp only [filterSwissArticlesV2, filterSwissArticlesV2Gen]
      rw [if_pos h, List.append_nil]
    · simp only [filterSwissArticlesV2, filterSwissArticlesV2Gen]
      rw [if_neg h]
      exact stage2Loop_spec _
        (fun batch c1 => enrichArticlesWithMetadata_metadataOnly remote now language batch c1)
        _ _ le_rfl _ c

/-- Witness for `c3_amended_order` at concrete inputs. -/
theorem c3_amended_order_witness :
    (swissKeywordFilter c9articles).Sublist c9articles ∧
    (filterSwissArticlesV2 (fun _ _ => none) 0 c9articles .fr []).1
        = swissKeywordFilter c9articles ∧
    (∃ rest src,
      (filterSwissArticlesV2 (fun _ _ => none) 0 c9articles .fr []).1
          = swissKeywordFilter c9articles ++ rest ∧
      List.Sublist src (c9articles.filter fun article =>
        !((swissKeywordFilter c9articles).any fun filtered =>
            filtered.article == article.article)) ∧
      List.Forall₂ metadataOnlyChange src rest ∧
      ∀ b ∈ rest, hasSwissCategory b = true) :=
  ⟨(c3_amended_order (fun _ _ => none) 0 .fr c9articles []).1,
   (c3_amended_order (fun _ _ => none) 0 .fr c9articles []).2.1 (by decide),
   (c3_amended_order (fun _ _ => none) 0 .fr c9articles []).2.2⟩

end HelvetiScan
